import Mathlib

/-!
# AVL removal (`123-avl_remove.c`) and balance factor (`14-binary_tree_balance.c`)

A shallow embedding of the C functions `avl_remove`, `avl_find_min`, `avl_height`,
`avl_balance`, `avl_rotate_right`, `avl_rotate_left`, `max` and `binary_tree_balance`.

* A pointer to a node is a value of `avl_t`; the `NULL` pointer is `avl_t.null`.
  The tree is singly owned, so destructive updates are rebuilt nodes.
* A function that dereferences a pointer returns `Option`: `none` stands for a
  dereference of `NULL` (undefined behaviour in C), `some t` for a normal return of `t`
  (so `some avl_t.null` is a normal return of the `NULL` pointer).
* `int` is `Int`. Keys are only compared and copied. Heights are bounded by the number
  of nodes on a path, so `left_height + 1` leaves the 32-bit range only for a tree with a
  path of `2 ^ 31 - 1` nodes, far beyond the recursion depth any C stack allows.
-/

namespace BinaryTrees

/-- Modelled from the spec: the node type `avl_t` / `binary_tree_t` of the header
`binary_trees.h`, which is not part of the sources. Following the spec's data model a node
carries a signed integer key `n`, a cached `height` and the two owned children `left` and
`right`; `null` is the absent tree. -/
inductive avl_t where
  | null : avl_t
  | node (n : Int) (height : Int) (left : avl_t) (right : avl_t) : avl_t
  deriving DecidableEq, Repr

open avl_t

/-- The C helper `max`: `(a > b) ? a : b`. -/
def max (a b : Int) : Int :=
  if a > b then a else b

/-- The C function `avl_height`: full recursive descent, the cached field is not read. -/
def avl_height : avl_t → Int
  | null => 0
  | node _ _ left right =>
    let left_height := avl_height left
    let right_height := avl_height right
    if left_height > right_height then left_height + 1 else right_height + 1

/-- The C function `avl_balance`. -/
def avl_balance : avl_t → Int
  | null => 0
  | node _ _ left right => avl_height left - avl_height right

/-- The C function `binary_tree_balance` (`14-binary_tree_balance.c`). -/
def binary_tree_balance : avl_t → Int
  | null => 0
  | node _ _ left right => avl_height left - avl_height right

/-- The C function `avl_find_min`: follow `left` links while they are present.
The loop condition reads `current->left`, so a `NULL` argument is a fault. -/
def avl_find_min : avl_t → Option avl_t
  | null => none
  | node n h null right => some (node n h null right)
  | node _ _ (node ln lh ll lr) _ => avl_find_min (node ln lh ll lr)

/-- The C function `avl_rotate_right`. Reading `y->left` and `x->right` faults when `y`
or its left child is `NULL`. The height of `y` is recomputed first, then that of `x`. -/
def avl_rotate_right : avl_t → Option avl_t
  | node yn _ (node xn _ xl T2) yr =>
    let y := node yn (max (avl_height T2) (avl_height yr) + 1) T2 yr
    some (node xn (max (avl_height xl) (avl_height y) + 1) xl y)
  | _ => none

/-- The C function `avl_rotate_left`. Reading `x->right` and `y->left` faults when `x`
or its right child is `NULL`. The height of `x` is recomputed first, then that of `y`. -/
def avl_rotate_left : avl_t → Option avl_t
  | node xn _ xl (node yn _ T2 yr) =>
    let x := node xn (max (avl_height xl) (avl_height T2) + 1) xl T2
    some (node yn (max (avl_height x) (avl_height yr) + 1) x yr)
  | _ => none

/-- Lines 46-71 of `avl_remove`: what happens to `root` once the search and deletion
step is done. A `NULL` root is returned at once; otherwise the cached height is
recomputed and the four rebalancing cases are tried in order. -/
def avl_remove_unwind : avl_t → Option avl_t
  | null => some null
  | node n _ left right =>
    let height := 1 + max (avl_height left) (avl_height right)
    let root := node n height left right
    let balance := avl_balance root
    if balance > 1 ∧ avl_balance left ≥ 0 then
      avl_rotate_right root
    else if balance > 1 ∧ avl_balance left < 0 then
      (avl_rotate_left left).bind fun left' => avl_rotate_right (node n height left' right)
    else if balance < -1 ∧ avl_balance right ≤ 0 then
      avl_rotate_left root
    else if balance < -1 ∧ avl_balance right > 0 then
      (avl_rotate_right right).bind fun right' => avl_rotate_left (node n height left right')
    else
      some root

/-- The C function `avl_remove`. Lines 14-44 compute the new `root` (search step and
the deletion cases), lines 46-71 are `avl_remove_unwind`.
In the zero-or-one-child case `*root = *temp` overwrites the matched node with the
content of its only child, so the new root is that child's content; with no child the
root becomes `NULL`. In the two-children case the key of `avl_find_min(root->right)` is
copied into the root and then removed from the right subtree. -/
def avl_remove : avl_t → Int → Option avl_t
  | null, _ => some null
  | node n h left right, value =>
    if value < n then
      (avl_remove left value).bind fun left' => avl_remove_unwind (node n h left' right)
    else if value > n then
      (avl_remove right value).bind fun right' => avl_remove_unwind (node n h left right')
    else
      match left, right with
      | null, null => avl_remove_unwind null
      | null, node rn rh rl rr => avl_remove_unwind (node rn rh rl rr)
      | node ln lh ll lr, null => avl_remove_unwind (node ln lh ll lr)
      | node ln lh ll lr, node rn rh rl rr =>
        match avl_find_min (node rn rh rl rr) with
        | none => none
        | some null => none
        | some (node tn _ _ _) =>
          (avl_remove (node rn rh rl rr) tn).bind fun right' =>
            avl_remove_unwind (node tn h (node ln lh ll lr) right')

/-! ## Observations on trees used to state the properties -/

/-- The in-order sequence of the keys of a tree. -/
def inorder : avl_t → List Int
  | null => []
  | node n _ left right => inorder left ++ n :: inorder right

/-- The number of nodes of a tree. -/
def size : avl_t → Nat
  | null => 0
  | node _ _ left right => size left + 1 + size right

/-- BST ordering (invariant 1 of the data model): at every node each key of the left
subtree is smaller than the node's key and each key of the right subtree is larger. -/
def bst_ordered : avl_t → Prop
  | null => True
  | node n _ left right =>
    (∀ x ∈ inorder left, x < n) ∧ (∀ x ∈ inorder right, n < x) ∧
      bst_ordered left ∧ bst_ordered right

/-- AVL balance (invariant 2 of the data model): at every node the heights of the two
subtrees differ by at most one. -/
def balanced : avl_t → Prop
  | null => True
  | node _ _ left right =>
    (-1 ≤ avl_height left - avl_height right ∧ avl_height left - avl_height right ≤ 1) ∧
      balanced left ∧ balanced right

/-- Cached heights are correct (invariant 3 of the data model): at every node the
`height` field equals one plus the larger of the heights of the two subtrees. -/
def heights_correct : avl_t → Prop
  | null => True
  | node _ height left right =>
    height = 1 + Max.max (avl_height left) (avl_height right) ∧
      heights_correct left ∧ heights_correct right

/-- An AVL-valid tree: BST-ordered and height-balanced at every node. -/
def avl_valid (t : avl_t) : Prop :=
  bst_ordered t ∧ balanced t

instance bst_ordered_decidable : (t : avl_t) → Decidable (bst_ordered t)
  | null => isTrue trivial
  | node n _ left right =>
    have := bst_ordered_decidable left
    have := bst_ordered_decidable right
    inferInstanceAs (Decidable ((∀ x ∈ inorder left, x < n) ∧ (∀ x ∈ inorder right, n < x) ∧
      bst_ordered left ∧ bst_ordered right))

instance balanced_decidable : (t : avl_t) → Decidable (balanced t)
  | null => isTrue trivial
  | node _ _ left right =>
    have := balanced_decidable left
    have := balanced_decidable right
    inferInstanceAs (Decidable ((-1 ≤ avl_height left - avl_height right ∧
      avl_height left - avl_height right ≤ 1) ∧ balanced left ∧ balanced right))

instance heights_correct_decidable : (t : avl_t) → Decidable (heights_correct t)
  | null => isTrue trivial
  | node _ height left right =>
    have := heights_correct_decidable left
    have := heights_correct_decidable right
    inferInstanceAs (Decidable (height = 1 + Max.max (avl_height left) (avl_height right) ∧
      heights_correct left ∧ heights_correct right))

instance avl_valid_decidable (t : avl_t) : Decidable (avl_valid t) :=
  inferInstanceAs (Decidable (bst_ordered t ∧ balanced t))

/-- A tree without the cached height fields: only the shape and the keys. -/
inductive shape_t where
  | null : shape_t
  | node (n : Int) (left : shape_t) (right : shape_t) : shape_t
  deriving DecidableEq, Repr

/-- The shape of a tree and the key at every position, the cached heights forgotten. -/
def structure_of : avl_t → shape_t
  | null => shape_t.null
  | node n _ left right => shape_t.node n (structure_of left) (structure_of right)

/-- A finite sequence of removals, applied from left to right; a fault in one call
is a fault of the whole sequence. -/
def remove_all : avl_t → List Int → Option avl_t
  | t, [] => some t
  | t, v :: vs => (avl_remove t v).bind fun t' => remove_all t' vs

/-- A node without children whose cached height is 1. -/
def leaf (n : Int) : avl_t :=
  node n 1 null null

/-- The balanced tree holding 30, 20, 40, 10, 25, 35, 50: root 30, left child 20 with
children 10 and 25, right child 40 with children 35 and 50. -/
def balanced_tree_7 : avl_t :=
  node 30 3 (node 20 2 (leaf 10) (leaf 25)) (node 40 2 (leaf 35) (leaf 50))

/-- A right-leaning chain with the keys 1, 2, 3: BST-ordered, cached heights correct,
but not height-balanced at its root. -/
def right_chain : avl_t :=
  node 1 3 null (node 2 2 null (leaf 3))

/-- A tree whose left subtree has height 3 and whose right subtree has height 1. -/
def left_3_right_1 : avl_t :=
  node 50 4 (node 30 3 (node 20 2 (leaf 10) null) (leaf 40)) (leaf 60)

/-- The left-heavy AVL-valid tree holding 30, 20, 40, 10, 15 with 30 at the root: left
subtree 15 with children 10 and 20, right child 40. -/
def left_heavy_tree : avl_t :=
  node 30 3 (node 15 2 (leaf 10) (leaf 20)) (leaf 40)

/-- The tree that plain (non-rebalancing) BST insertion of 30, 20, 40, 10, 15 builds:
left child 20, whose left child 10 has the right child 15; right child 40. It is
BST-ordered but not height-balanced. -/
def inserted_chain_tree : avl_t :=
  node 30 4 (node 20 3 (node 10 2 null (leaf 15)) null) (leaf 40)

/-- The node `m` is reached from the root of the tree by following only `left` links
(zero or more of them). -/
def reached_by_left (m : avl_t) : avl_t → Prop
  | null => False
  | node n h left right => m = node n h left right ∨ reached_by_left m left

instance reached_by_left_decidable (m : avl_t) : (t : avl_t) → Decidable (reached_by_left m t)
  | null => isFalse id
  | node n h left right =>
    have := reached_by_left_decidable m left
    inferInstanceAs (Decidable (m = node n h left right ∨ reached_by_left m left))

/-- A variant of `avl_rotate_right` with the two height assignments swapped, following
the spec's remark that their order matters: `x->height` is assigned first, while the
`height` field of `y` still holds its old value, and `y->height` second. -/
def avl_rotate_right_x_first : avl_t → Option avl_t
  | node yn yh (node xn _ xl T2) yr =>
    let y_stale := node yn yh T2 yr
    let x_height := max (avl_height xl) (avl_height y_stale) + 1
    let y := node yn (max (avl_height T2) (avl_height yr) + 1) T2 yr
    some (node xn x_height xl y)
  | _ => none

/-- A variant of `avl_rotate_left` with the two height assignments swapped: `y->height`
is assigned first, while the `height` field of `x` still holds its old value, and
`x->height` second. -/
def avl_rotate_left_y_first : avl_t → Option avl_t
  | node xn xh xl (node yn _ T2 yr) =>
    let x_stale := node xn xh xl T2
    let y_height := max (avl_height x_stale) (avl_height yr) + 1
    let x := node xn (max (avl_height xl) (avl_height T2) + 1) xl T2
    some (node yn y_height x yr)
  | _ => none

/-! ## Basic facts -/

/-- The C helper `max` computes the mathematical maximum. -/
theorem max_eq_max (a b : Int) : max a b = Max.max a b := by
  unfold max; split <;> omega

/-- Height of a present node, whatever its cached field holds. -/
theorem avl_height_node (n h : Int) (l r : avl_t) :
    avl_height (node n h l r) = 1 + Max.max (avl_height l) (avl_height r) := by
  simp only [avl_height]; split <;> omega

/-- Heights are never negative. -/
theorem avl_height_nonneg (t : avl_t) : 0 ≤ avl_height t := by
  induction t with
  | null => simp [avl_height]
  | node n h l r ihl ihr => rw [avl_height_node]; omega

/-- A present node has positive height. -/
theorem avl_height_pos (n h : Int) (l r : avl_t) : 0 < avl_height (node n h l r) := by
  have := avl_height_nonneg l
  rw [avl_height_node]; omega

/-- A tree of positive height is a present node. -/
theorem node_of_height_pos {t : avl_t} (h : 0 < avl_height t) :
    ∃ n c l r, t = node n c l r := by
  cases t with
  | null => simp [avl_height] at h
  | node n c l r => exact ⟨n, c, l, r, rfl⟩

/-- The five outcomes of the unwinding step at a present root. -/
theorem avl_remove_unwind_cases (n h : Int) (l r : avl_t) :
    (-1 ≤ avl_height l - avl_height r ∧ avl_height l - avl_height r ≤ 1 ∧
      avl_remove_unwind (node n h l r) =
        some (node n (1 + max (avl_height l) (avl_height r)) l r)) ∨
    (∃ xn xh A B, l = node xn xh A B ∧ 1 < avl_height l - avl_height r ∧
      avl_height B ≤ avl_height A ∧
      avl_remove_unwind (node n h l r) =
        some (node xn (max (avl_height A)
            (avl_height (node n (max (avl_height B) (avl_height r) + 1) B r)) + 1) A
          (node n (max (avl_height B) (avl_height r) + 1) B r))) ∨
    (∃ xn xh A zn zh B1 B2, l = node xn xh A (node zn zh B1 B2) ∧
      1 < avl_height l - avl_height r ∧ avl_height A < avl_height (node zn zh B1 B2) ∧
      avl_remove_unwind (node n h l r) =
        some (node zn (max (avl_height (node xn (max (avl_height A) (avl_height B1) + 1) A B1))
            (avl_height (node n (max (avl_height B2) (avl_height r) + 1) B2 r)) + 1)
          (node xn (max (avl_height A) (avl_height B1) + 1) A B1)
          (node n (max (avl_height B2) (avl_height r) + 1) B2 r))) ∨
    (∃ yn yh B C, r = node yn yh B C ∧ avl_height l - avl_height r < -1 ∧
      avl_height B ≤ avl_height C ∧
      avl_remove_unwind (node n h l r) =
        some (node yn (max (avl_height (node n (max (avl_height l) (avl_height B) + 1) l B))
            (avl_height C) + 1)
          (node n (max (avl_height l) (avl_height B) + 1) l B) C)) ∨
    (∃ yn yh zn zh B1 B2 C, r = node yn yh (node zn zh B1 B2) C ∧
      avl_height l - avl_height r < -1 ∧ avl_height C < avl_height (node zn zh B1 B2) ∧
      avl_remove_unwind (node n h l r) =
        some (node zn (max (avl_height (node n (max (avl_height l) (avl_height B1) + 1) l B1))
            (avl_height (node yn (max (avl_height B2) (avl_height C) + 1) B2 C)) + 1)
          (node n (max (avl_height l) (avl_height B1) + 1) l B1)
          (node yn (max (avl_height B2) (avl_height C) + 1) B2 C))) := by
  have hl0 := avl_height_nonneg l
  have hr0 := avl_height_nonneg r
  by_cases h1 : 1 < avl_height l - avl_height r
  · obtain ⟨xn, xh, A, B, rfl⟩ := node_of_height_pos (t := l) (by omega)
    by_cases h2 : avl_height B ≤ avl_height A
    · right; left
      refine ⟨xn, xh, A, B, rfl, h1, h2, ?_⟩
      have c1 : avl_balance (node n (1 + max (avl_height (node xn xh A B)) (avl_height r))
          (node xn xh A B) r) > 1 ∧ avl_balance (node xn xh A B) ≥ 0 := by
        simp only [avl_balance]; omega
      simp only [avl_remove_unwind, if_pos c1, avl_rotate_right]
    · right; right; left
      have hB0 := avl_height_nonneg A
      obtain ⟨zn, zh, B1, B2, rfl⟩ := node_of_height_pos (t := B) (by omega)
      refine ⟨xn, xh, A, zn, zh, B1, B2, rfl, h1, by omega, ?_⟩
      have c1 : ¬ (avl_balance (node n (1 + max (avl_height (node xn xh A (node zn zh B1 B2)))
          (avl_height r)) (node xn xh A (node zn zh B1 B2)) r) > 1 ∧
          avl_balance (node xn xh A (node zn zh B1 B2)) ≥ 0) := by
        simp only [avl_balance]; omega
      have c2 : avl_balance (node n (1 + max (avl_height (node xn xh A (node zn zh B1 B2)))
          (avl_height r)) (node xn xh A (node zn zh B1 B2)) r) > 1 ∧
          avl_balance (node xn xh A (node zn zh B1 B2)) < 0 := by
        simp only [avl_balance]; omega
      simp only [avl_remove_unwind, if_neg c1, if_pos c2, avl_rotate_left, Option.bind,
        avl_rotate_right]
  · have n1 : ¬ (avl_balance (node n (1 + max (avl_height l) (avl_height r)) l r) > 1 ∧
        avl_balance l ≥ 0) := by
      simp only [avl_balance]; omega
    have n2 : ¬ (avl_balance (node n (1 + max (avl_height l) (avl_height r)) l r) > 1 ∧
        avl_balance l < 0) := by
      simp only [avl_balance]; omega
    by_cases h3 : avl_height l - avl_height r < -1
    · obtain ⟨yn, yh, B, C, rfl⟩ := node_of_height_pos (t := r) (by omega)
      by_cases h4 : avl_height B ≤ avl_height C
      · right; right; right; left
        refine ⟨yn, yh, B, C, rfl, h3, h4, ?_⟩
        have c3 : avl_balance (node n (1 + max (avl_height l) (avl_height (node yn yh B C)))
            l (node yn yh B C)) < -1 ∧ avl_balance (node yn yh B C) ≤ 0 := by
          simp only [avl_balance]; omega
        simp only [avl_remove_unwind, if_neg n1, if_neg n2, if_pos c3, avl_rotate_left]
      · right; right; right; right
        have hC0 := avl_height_nonneg C
        obtain ⟨zn, zh, B1, B2, rfl⟩ := node_of_height_pos (t := B) (by omega)
        refine ⟨yn, yh, zn, zh, B1, B2, C, rfl, h3, by omega, ?_⟩
        have c3 : ¬ (avl_balance (node n (1 + max (avl_height l)
            (avl_height (node yn yh (node zn zh B1 B2) C))) l (node yn yh (node zn zh B1 B2) C))
            < -1 ∧ avl_balance (node yn yh (node zn zh B1 B2) C) ≤ 0) := by
          simp only [avl_balance]; omega
        have c4 : avl_balance (node n (1 + max (avl_height l)
            (avl_height (node yn yh (node zn zh B1 B2) C))) l (node yn yh (node zn zh B1 B2) C))
            < -1 ∧ avl_balance (node yn yh (node zn zh B1 B2) C) > 0 := by
          simp only [avl_balance]; omega
        simp only [avl_remove_unwind, if_neg n1, if_neg n2, if_neg c3, if_pos c4,
          avl_rotate_right, Option.bind, avl_rotate_left]
    · left
      have c3 : ¬ (avl_balance (node n (1 + max (avl_height l) (avl_height r)) l r) < -1 ∧
          avl_balance r ≤ 0) := by
        simp only [avl_balance]; omega
      have c4 : ¬ (avl_balance (node n (1 + max (avl_height l) (avl_height r)) l r) < -1 ∧
          avl_balance r > 0) := by
        simp only [avl_balance]; omega
      refine ⟨by omega, by omega, ?_⟩
      simp only [avl_remove_unwind, if_neg n1, if_neg n2, if_neg c3, if_neg c4]

/-- The unwinding step never faults: whenever it rotates, the pivot child is present. -/
theorem avl_remove_unwind_total (t : avl_t) : ∃ t', avl_remove_unwind t = some t' := by
  cases t with
  | null => exact ⟨null, rfl⟩
  | node n h l r =>
    rcases avl_remove_unwind_cases n h l r with ⟨_, _, e⟩ | ⟨_, _, _, _, _, _, _, e⟩ |
      ⟨_, _, _, _, _, _, _, _, _, _, e⟩ | ⟨_, _, _, _, _, _, _, e⟩ |
      ⟨_, _, _, _, _, _, _, _, _, _, e⟩ <;> exact ⟨_, e⟩

/-- The unwinding step at a present root returns a present root. -/
theorem avl_remove_unwind_ne_null {n h : Int} {l r t' : avl_t}
    (e : avl_remove_unwind (node n h l r) = some t') : t' ≠ null := by
  rcases avl_remove_unwind_cases n h l r with ⟨_, _, e'⟩ | ⟨_, _, _, _, _, _, _, e'⟩ |
    ⟨_, _, _, _, _, _, _, _, _, _, e'⟩ | ⟨_, _, _, _, _, _, _, e'⟩ |
    ⟨_, _, _, _, _, _, _, _, _, _, e'⟩ <;>
  · rw [e'] at e; cases e; simp

/-- The unwinding step keeps the in-order sequence. -/
theorem avl_remove_unwind_inorder {n h : Int} {l r t' : avl_t}
    (e : avl_remove_unwind (node n h l r) = some t') :
    inorder t' = inorder l ++ n :: inorder r := by
  rcases avl_remove_unwind_cases n h l r with ⟨_, _, e'⟩ | ⟨_, _, _, _, rfl, _, _, e'⟩ |
    ⟨_, _, _, _, _, _, _, rfl, _, _, e'⟩ | ⟨_, _, _, _, rfl, _, _, e'⟩ |
    ⟨_, _, _, _, _, _, _, rfl, _, _, e'⟩ <;>
  · rw [e'] at e; cases e; simp [inorder]

/-- The unwinding step writes correct heights into every node it touches. -/
theorem avl_remove_unwind_heights_correct {n h : Int} {l r t' : avl_t}
    (hl : heights_correct l) (hr : heights_correct r)
    (e : avl_remove_unwind (node n h l r) = some t') : heights_correct t' := by
  rcases avl_remove_unwind_cases n h l r with ⟨_, _, e'⟩ | ⟨_, _, _, _, rfl, _, _, e'⟩ |
    ⟨_, _, _, _, _, _, _, rfl, _, _, e'⟩ | ⟨_, _, _, _, rfl, _, _, e'⟩ |
    ⟨_, _, _, _, _, _, _, rfl, _, _, e'⟩ <;>
  · rw [e'] at e; cases e
    simp only [heights_correct, max_eq_max] at *
    simp [*, add_comm]

/-- The unwinding step restores balance when the two subtrees are balanced and their
heights differ by at most two; the height of the result is known up to one. -/
theorem avl_remove_unwind_balanced {n h : Int} {l r t' : avl_t}
    (hl : balanced l) (hr : balanced r)
    (h1 : -2 ≤ avl_height l - avl_height r) (h2 : avl_height l - avl_height r ≤ 2)
    (e : avl_remove_unwind (node n h l r) = some t') :
    balanced t' ∧ avl_height t' ≤ 1 + Max.max (avl_height l) (avl_height r) ∧
      Max.max (avl_height l) (avl_height r) ≤ avl_height t' ∧
      (-1 ≤ avl_height l - avl_height r → avl_height l - avl_height r ≤ 1 →
        avl_height t' = 1 + Max.max (avl_height l) (avl_height r)) := by
  rcases avl_remove_unwind_cases n h l r with ⟨_, _, e'⟩ | ⟨_, _, _, _, rfl, _, _, e'⟩ |
    ⟨_, _, _, _, _, _, _, rfl, _, _, e'⟩ | ⟨_, _, _, _, rfl, _, _, e'⟩ |
    ⟨_, _, _, _, _, _, _, rfl, _, _, e'⟩ <;>
  · rw [e'] at e; cases e
    simp only [balanced, avl_height_node] at *
    try casesm* _ ∧ _
    and_intros <;> first | assumption | (intros; first | trivial | omega)

/-! ## The search and deletion step, case by case -/

/-- On a present tree `avl_find_min` returns a node without left child that holds the
first key of the in-order sequence. -/
theorem avl_find_min_node (n h : Int) (l r : avl_t) :
    ∃ tn th tr rest, avl_find_min (node n h l r) = some (node tn th null tr) ∧
      inorder (node n h l r) = tn :: rest := by
  induction l generalizing n h r with
  | null => exact ⟨n, h, r, inorder r, rfl, by simp [inorder]⟩
  | node ln lh ll lr ihl _ =>
    obtain ⟨tn, th, tr, rest, e, e'⟩ := ihl ln lh lr
    refine ⟨tn, th, tr, rest ++ n :: inorder r, ?_, ?_⟩
    · rw [avl_find_min, e]
    · rw [inorder, e']; simp

/-- Search step, left branch. -/
theorem avl_remove_lt {n h value : Int} (l r : avl_t) (hv : value < n) :
    avl_remove (node n h l r) value =
      (avl_remove l value).bind fun l' => avl_remove_unwind (node n h l' r) := by
  cases l <;> cases r <;> simp [avl_remove, hv]

/-- Search step, right branch. -/
theorem avl_remove_gt {n h value : Int} (l r : avl_t) (hv : n < value) :
    avl_remove (node n h l r) value =
      (avl_remove r value).bind fun r' => avl_remove_unwind (node n h l r') := by
  have hv' : ¬ value < n := by omega
  cases l <;> cases r <;> simp [avl_remove, hv, hv']

/-- Deletion of a matched node without children. -/
theorem avl_remove_eq_leaf (n h : Int) : avl_remove (node n h null null) n = some null := by
  simp [avl_remove, avl_remove_unwind]

/-- Deletion of a matched node whose only child is the right one. -/
theorem avl_remove_eq_right (n h rn rh : Int) (rl rr : avl_t) :
    avl_remove (node n h null (node rn rh rl rr)) n = avl_remove_unwind (node rn rh rl rr) := by
  simp [avl_remove]

/-- Deletion of a matched node whose only child is the left one. -/
theorem avl_remove_eq_left (n h ln lh : Int) (ll lr : avl_t) :
    avl_remove (node n h (node ln lh ll lr) null) n = avl_remove_unwind (node ln lh ll lr) := by
  simp [avl_remove]

/-- Deletion of a matched node with two children: the first in-order key of the right
subtree replaces the matched key and is removed from the right subtree. -/
theorem avl_remove_eq_two (n h ln lh rn rh : Int) (ll lr rl rr : avl_t) :
    ∃ tn rest, inorder (node rn rh rl rr) = tn :: rest ∧
      avl_remove (node n h (node ln lh ll lr) (node rn rh rl rr)) n =
        (avl_remove (node rn rh rl rr) tn).bind fun r' =>
          avl_remove_unwind (node tn h (node ln lh ll lr) r') := by
  obtain ⟨tn, th, tr, rest, e, e'⟩ := avl_find_min_node rn rh rl rr
  refine ⟨tn, rest, e', ?_⟩
  rw [avl_remove, if_neg (by omega), if_neg (by omega)]
  simp only [e]

/-- Case analysis of `avl_remove` at a present root: the search steps, and the
deletion cases when the key matches. -/
theorem avl_remove_node_cases (n h value : Int) (l r : avl_t) :
    (value < n ∧ avl_remove (node n h l r) value =
      (avl_remove l value).bind fun l' => avl_remove_unwind (node n h l' r)) ∨
    (n < value ∧ avl_remove (node n h l r) value =
      (avl_remove r value).bind fun r' => avl_remove_unwind (node n h l r')) ∨
    (value = n ∧ l = null ∧ r = null ∧ avl_remove (node n h l r) value = some null) ∨
    (value = n ∧ l = null ∧ r ≠ null ∧
      avl_remove (node n h l r) value = avl_remove_unwind r) ∨
    (value = n ∧ l ≠ null ∧ r = null ∧
      avl_remove (node n h l r) value = avl_remove_unwind l) ∨
    (value = n ∧ l ≠ null ∧ r ≠ null ∧ ∃ tn rest, inorder r = tn :: rest ∧
      avl_remove (node n h l r) value =
        (avl_remove r tn).bind fun r' => avl_remove_unwind (node tn h l r')) := by
  rcases lt_trichotomy value n with hv | hv | hv
  · exact Or.inl ⟨hv, avl_remove_lt l r hv⟩
  · subst hv
    cases l with
    | null =>
      cases r with
      | null => exact Or.inr (Or.inr (Or.inl ⟨rfl, rfl, rfl, avl_remove_eq_leaf _ _⟩))
      | node rn rh rl rr =>
        exact Or.inr (Or.inr (Or.inr (Or.inl ⟨rfl, rfl, by simp, avl_remove_eq_right _ _ _ _ _ _⟩)))
    | node ln lh ll lr =>
      cases r with
      | null =>
        exact Or.inr (Or.inr (Or.inr (Or.inr (Or.inl
          ⟨rfl, by simp, rfl, avl_remove_eq_left _ _ _ _ _ _⟩))))
      | node rn rh rl rr =>
        obtain ⟨tn, rest, e, e'⟩ := avl_remove_eq_two value h ln lh rn rh ll lr rl rr
        exact Or.inr (Or.inr (Or.inr (Or.inr (Or.inr
          ⟨rfl, by simp, by simp, tn, rest, e, e'⟩))))
  · exact Or.inr (Or.inl ⟨hv, avl_remove_gt l r hv⟩)

/-- The function `avl_remove` never faults, on any tree and any value. -/
theorem avl_remove_total (t : avl_t) (value : Int) : ∃ t', avl_remove t value = some t' := by
  induction t generalizing value with
  | null => exact ⟨null, rfl⟩
  | node n h l r ihl ihr =>
    rcases avl_remove_node_cases n h value l r with ⟨_, e⟩ | ⟨_, e⟩ | ⟨_, _, _, e⟩ |
      ⟨_, _, _, e⟩ | ⟨_, _, _, e⟩ | ⟨_, _, _, tn, _, _, e⟩
    · obtain ⟨l', hl'⟩ := ihl value
      rw [e, hl', Option.some_bind]; exact avl_remove_unwind_total _
    · obtain ⟨r', hr'⟩ := ihr value
      rw [e, hr', Option.some_bind]; exact avl_remove_unwind_total _
    · exact ⟨_, e⟩
    · rw [e]; exact avl_remove_unwind_total _
    · rw [e]; exact avl_remove_unwind_total _
    · obtain ⟨r', hr'⟩ := ihr tn
      rw [e, hr', Option.some_bind]; exact avl_remove_unwind_total _

/-! ## Properties of `avl_remove` -/

/-- A successful `bind` splits into its two successful steps. -/
theorem bind_eq_some_elim {f : avl_t → Option avl_t} {o : Option avl_t} {t' : avl_t}
    (e : o.bind f = some t') : ∃ a, o = some a ∧ f a = some t' := by
  cases o with
  | none => simp at e
  | some a => exact ⟨a, rfl, e⟩

/-- Removal keeps cached heights correct. -/
theorem avl_remove_heights_correct {t t' : avl_t} {value : Int} (hc : heights_correct t)
    (e : avl_remove t value = some t') : heights_correct t' := by
  induction t generalizing value t' with
  | null => cases e; trivial
  | node n h l r ihl ihr =>
    obtain ⟨_, hcl, hcr⟩ := hc
    rcases avl_remove_node_cases n h value l r with ⟨_, e1⟩ | ⟨_, e1⟩ | ⟨_, _, _, e1⟩ |
      ⟨_, rfl, hr, e1⟩ | ⟨_, hl, rfl, e1⟩ | ⟨_, _, _, tn, _, _, e1⟩
    · rw [e1] at e
      obtain ⟨l', el, e2⟩ := bind_eq_some_elim e
      exact avl_remove_unwind_heights_correct (ihl hcl el) hcr e2
    · rw [e1] at e
      obtain ⟨r', er, e2⟩ := bind_eq_some_elim e
      exact avl_remove_unwind_heights_correct hcl (ihr hcr er) e2
    · rw [e1] at e; cases e; trivial
    · rw [e1] at e
      cases r with
      | null => exact absurd rfl hr
      | node rn rh rl rr => exact avl_remove_unwind_heights_correct hcr.2.1 hcr.2.2 e
    · rw [e1] at e
      cases l with
      | null => exact absurd rfl hl
      | node ln lh ll lr => exact avl_remove_unwind_heights_correct hcl.2.1 hcl.2.2 e
    · rw [e1] at e
      obtain ⟨r', er, e2⟩ := bind_eq_some_elim e
      exact avl_remove_unwind_heights_correct hcl (ihr hcr er) e2

/-- Removing a value that does not occur keeps the in-order sequence, on any tree. -/
theorem avl_remove_inorder_of_not_mem {t t' : avl_t} {value : Int}
    (hv : value ∉ inorder t) (e : avl_remove t value = some t') : inorder t' = inorder t := by
  induction t generalizing t' with
  | null => cases e; rfl
  | node n h l r ihl ihr =>
    simp only [inorder, List.mem_append, List.mem_cons, not_or] at hv
    obtain ⟨hvl, hvn, hvr⟩ := hv
    rcases avl_remove_node_cases n h value l r with ⟨_, e1⟩ | ⟨_, e1⟩ | ⟨h0, _⟩ |
      ⟨h0, _⟩ | ⟨h0, _⟩ | ⟨h0, _⟩
    · rw [e1] at e
      obtain ⟨l', el, e2⟩ := bind_eq_some_elim e
      rw [avl_remove_unwind_inorder e2, ihl hvl el, inorder]
    · rw [e1] at e
      obtain ⟨r', er, e2⟩ := bind_eq_some_elim e
      rw [avl_remove_unwind_inorder e2, ihr hvr er, inorder]
    all_goals exact absurd h0 hvn

/-- BST ordering is strict sortedness of the in-order sequence. -/
theorem bst_ordered_iff_pairwise (t : avl_t) :
    bst_ordered t ↔ (inorder t).Pairwise (· < ·) := by
  induction t with
  | null => simp [bst_ordered, inorder]
  | node n h l r ihl ihr =>
    simp only [bst_ordered, inorder, List.pairwise_append, List.pairwise_cons, ihl, ihr,
      List.mem_cons]
    constructor
    · rintro ⟨h1, h2, h3, h4⟩
      refine ⟨h3, ⟨h2, h4⟩, ?_⟩
      rintro a ha b (rfl | hb)
      · exact h1 a ha
      · exact lt_trans (h1 a ha) (h2 b hb)
    · rintro ⟨h3, ⟨h2, h4⟩, h5⟩
      exact ⟨fun x hx => h5 x hx n (Or.inl rfl), h2, h3, h4⟩

/-- On a BST-ordered tree removal erases the value from the in-order sequence. -/
theorem avl_remove_inorder_bst {t t' : avl_t} {value : Int} (hb : bst_ordered t)
    (e : avl_remove t value = some t') : inorder t' = (inorder t).erase value := by
  induction t generalizing value t' with
  | null => cases e; rfl
  | node n h l r ihl ihr =>
    obtain ⟨hlt, hgt, hbl, hbr⟩ := hb
    rcases avl_remove_node_cases n h value l r with ⟨hv, e1⟩ | ⟨hv, e1⟩ | ⟨rfl, rfl, rfl, e1⟩ |
      ⟨rfl, rfl, hr, e1⟩ | ⟨rfl, hl, rfl, e1⟩ | ⟨rfl, _, _, tn, rest, hmin, e1⟩
    · rw [e1] at e
      obtain ⟨l', el, e2⟩ := bind_eq_some_elim e
      rw [avl_remove_unwind_inorder e2, ihl hbl el, inorder]
      have hvr : value ∉ inorder r := fun hm => by have := hgt _ hm; omega
      by_cases hm : value ∈ inorder l
      · rw [List.erase_append_left _ hm]
      · rw [List.erase_append_right _ hm, List.erase_of_not_mem hm,
          List.erase_cons_tail (by simpa using (ne_of_lt hv).symm), List.erase_of_not_mem hvr]
    · rw [e1] at e
      obtain ⟨r', er, e2⟩ := bind_eq_some_elim e
      rw [avl_remove_unwind_inorder e2, ihr hbr er, inorder]
      have hvl : value ∉ inorder l := fun hm => by have := hlt _ hm; omega
      rw [List.erase_append_right _ hvl, List.erase_cons_tail (by simpa using ne_of_lt hv)]
    · rw [e1] at e; cases e; simp [inorder]
    · rw [e1] at e
      cases r with
      | null => exact absurd rfl hr
      | node rn rh rl rr => rw [avl_remove_unwind_inorder e]; simp [inorder]
    · rw [e1] at e
      cases l with
      | null => exact absurd rfl hl
      | node ln lh ll lr =>
        have hvl : value ∉ inorder (node ln lh ll lr) := fun hm => by
          have := hlt _ hm; omega
        rw [avl_remove_unwind_inorder e, inorder, List.erase_append_right _ hvl]
        simp [inorder]
    · rw [e1] at e
      obtain ⟨r', er, e2⟩ := bind_eq_some_elim e
      have hvl : value ∉ inorder l := fun hm => by have := hlt _ hm; omega
      rw [avl_remove_unwind_inorder e2, ihr hbr er, inorder, List.erase_append_right _ hvl,
        hmin]
      simp

/-- On a balanced tree removal returns a balanced tree whose height is the old height
or one less. -/
theorem avl_remove_balanced {t t' : avl_t} {value : Int} (hb : balanced t)
    (e : avl_remove t value = some t') :
    balanced t' ∧ avl_height t' ≤ avl_height t ∧ avl_height t ≤ avl_height t' + 1 := by
  induction t generalizing value t' with
  | null => cases e; simp [balanced]
  | node n h l r ihl ihr =>
    obtain ⟨⟨hb1, hb2⟩, hbl, hbr⟩ := hb
    have hl0 := avl_height_nonneg l
    have hr0 := avl_height_nonneg r
    rw [avl_height_node]
    rcases avl_remove_node_cases n h value l r with ⟨_, e1⟩ | ⟨_, e1⟩ | ⟨_, rfl, rfl, e1⟩ |
      ⟨_, rfl, hr, e1⟩ | ⟨_, hl, rfl, e1⟩ | ⟨_, _, _, tn, _, _, e1⟩
    · rw [e1] at e
      obtain ⟨l', el, e2⟩ := bind_eq_some_elim e
      obtain ⟨i1, i2, i3⟩ := ihl hbl el
      obtain ⟨u1, u2, u3, u4⟩ := avl_remove_unwind_balanced i1 hbr (by omega) (by omega) e2
      exact ⟨u1, by omega, by omega⟩
    · rw [e1] at e
      obtain ⟨r', er, e2⟩ := bind_eq_some_elim e
      obtain ⟨i1, i2, i3⟩ := ihr hbr er
      obtain ⟨u1, u2, u3, u4⟩ := avl_remove_unwind_balanced hbl i1 (by omega) (by omega) e2
      exact ⟨u1, by omega, by omega⟩
    · rw [e1] at e; cases e
      simp only [avl_height] at *
      exact ⟨trivial, by omega, by omega⟩
    · rw [e1] at e
      cases r with
      | null => exact absurd rfl hr
      | node rn rh rl rr =>
        obtain ⟨⟨c1, c2⟩, cl, cr⟩ := hbr
        obtain ⟨u1, u2, u3, u4⟩ := avl_remove_unwind_balanced cl cr (by omega) (by omega) e
        have hn : avl_height null = 0 := rfl
        have hc := avl_height_node rn rh rl rr
        exact ⟨u1, by omega, by omega⟩
    · rw [e1] at e
      cases l with
      | null => exact absurd rfl hl
      | node ln lh ll lr =>
        obtain ⟨⟨c1, c2⟩, cl, cr⟩ := hbl
        obtain ⟨u1, u2, u3, u4⟩ := avl_remove_unwind_balanced cl cr (by omega) (by omega) e
        have hn : avl_height null = 0 := rfl
        have hc := avl_height_node ln lh ll lr
        exact ⟨u1, by omega, by omega⟩
    · rw [e1] at e
      obtain ⟨r', er, e2⟩ := bind_eq_some_elim e
      obtain ⟨i1, i2, i3⟩ := ihr hbr er
      obtain ⟨u1, u2, u3, u4⟩ := avl_remove_unwind_balanced hbl i1 (by omega) (by omega) e2
      exact ⟨u1, by omega, by omega⟩

/-- When the heights of the two subtrees differ by at most one the unwinding step only
rewrites the cached height of the root. -/
theorem avl_remove_unwind_of_balanced {n h : Int} {l r : avl_t}
    (h1 : -1 ≤ avl_height l - avl_height r) (h2 : avl_height l - avl_height r ≤ 1) :
    avl_remove_unwind (node n h l r) =
      some (node n (1 + max (avl_height l) (avl_height r)) l r) := by
  rcases avl_remove_unwind_cases n h l r with ⟨_, _, e'⟩ | ⟨_, _, _, _, _, _, _, _⟩ |
    ⟨_, _, _, _, _, _, _, _, _, _, _⟩ | ⟨_, _, _, _, _, _, _, _⟩ |
    ⟨_, _, _, _, _, _, _, _, _, _, _⟩
  · exact e'
  all_goals omega

/-- On a balanced tree with correct cached heights, removing a value that does not
occur returns the tree itself. -/
theorem avl_remove_of_not_mem {t : avl_t} {value : Int} (hb : balanced t)
    (hc : heights_correct t) (hv : value ∉ inorder t) : avl_remove t value = some t := by
  induction t with
  | null => rfl
  | node n h l r ihl ihr =>
    simp only [inorder, List.mem_append, List.mem_cons, not_or] at hv
    obtain ⟨hvl, hvn, hvr⟩ := hv
    obtain ⟨⟨hb1, hb2⟩, hbl, hbr⟩ := hb
    obtain ⟨hh, hcl, hcr⟩ := hc
    rcases avl_remove_node_cases n h value l r with ⟨_, e1⟩ | ⟨_, e1⟩ | ⟨h0, _⟩ |
      ⟨h0, _⟩ | ⟨h0, _⟩ | ⟨h0, _⟩
    · rw [e1, ihl hbl hcl hvl, Option.some_bind, avl_remove_unwind_of_balanced hb1 hb2,
        max_eq_max, ← hh]
    · rw [e1, ihr hbr hcr hvr, Option.some_bind, avl_remove_unwind_of_balanced hb1 hb2,
        max_eq_max, ← hh]
    all_goals exact absurd h0 hvn

/-- Trees of the same shape have the same height. -/
theorem avl_height_of_structure {t t' : avl_t} (h : structure_of t = structure_of t') :
    avl_height t = avl_height t' := by
  induction t generalizing t' with
  | null =>
    cases t' with
    | null => rfl
    | node _ _ _ _ => simp [structure_of] at h
  | node n c l r ihl ihr =>
    cases t' with
    | null => simp [structure_of] at h
    | node n' c' l' r' =>
      simp only [structure_of, shape_t.node.injEq] at h
      rw [avl_height_node, avl_height_node, ihl h.2.1, ihr h.2.2]

/-- On a balanced tree, removing a value that does not occur keeps shape and values. -/
theorem avl_remove_structure_of_not_mem {t t' : avl_t} {value : Int} (hb : balanced t)
    (hv : value ∉ inorder t) (e : avl_remove t value = some t') :
    structure_of t' = structure_of t := by
  induction t generalizing t' with
  | null => cases e; rfl
  | node n h l r ihl ihr =>
    simp only [inorder, List.mem_append, List.mem_cons, not_or] at hv
    obtain ⟨hvl, hvn, hvr⟩ := hv
    obtain ⟨⟨hb1, hb2⟩, hbl, hbr⟩ := hb
    rcases avl_remove_node_cases n h value l r with ⟨_, e1⟩ | ⟨_, e1⟩ | ⟨h0, _⟩ |
      ⟨h0, _⟩ | ⟨h0, _⟩ | ⟨h0, _⟩
    · rw [e1] at e
      obtain ⟨l', el, e2⟩ := bind_eq_some_elim e
      have hs := ihl hbl hvl el
      have hh := avl_height_of_structure hs
      rw [avl_remove_unwind_of_balanced (by omega) (by omega)] at e2
      cases e2
      simp [structure_of, hs]
    · rw [e1] at e
      obtain ⟨r', er, e2⟩ := bind_eq_some_elim e
      have hs := ihr hbr hvr er
      have hh := avl_height_of_structure hs
      rw [avl_remove_unwind_of_balanced (by omega) (by omega)] at e2
      cases e2
      simp [structure_of, hs]
    all_goals exact absurd h0 hvn

/-- The node count is the length of the in-order sequence. -/
theorem size_eq_length_inorder (t : avl_t) : size t = (inorder t).length := by
  induction t with
  | null => rfl
  | node n h l r ihl ihr => simp [size, inorder, ihl, ihr]; omega

/-- A sequence of removals keeps AVL validity and the correctness of cached heights. -/
theorem remove_all_invariants (vs : List Int) (T : avl_t) (hv : avl_valid T)
    (hc : heights_correct T) :
    ∃ T', remove_all T vs = some T' ∧ avl_valid T' ∧ heights_correct T' := by
  induction vs generalizing T with
  | nil => exact ⟨T, rfl, hv, hc⟩
  | cons v vs ih =>
    obtain ⟨T1, e⟩ := avl_remove_total T v
    have hb : bst_ordered T1 := by
      rw [bst_ordered_iff_pairwise, avl_remove_inorder_bst hv.1 e]
      exact ((bst_ordered_iff_pairwise T).1 hv.1).sublist (List.erase_sublist _ _)
    obtain ⟨T', e', h'⟩ := ih T1 ⟨hb, (avl_remove_balanced hv.2 e).1⟩
      (avl_remove_heights_correct hc e)
    exact ⟨T', by rw [remove_all, e, Option.some_bind, e'], h'⟩

/-! ## The claims -/

/-- C1: for every AVL-valid tree `T` (BST-ordered and height-balanced at every node) and
every value `v`, `avl_remove T v` returns a tree that is again BST-ordered and
height-balanced at every node. -/
theorem avl_remove_preserves_avl (T : avl_t) (v : Int) (h : avl_valid T) :
    ∃ T', avl_remove T v = some T' ∧ bst_ordered T' ∧ balanced T' := by
  obtain ⟨T', e⟩ := avl_remove_total T v
  refine ⟨T', e, ?_, (avl_remove_balanced h.2 e).1⟩
  rw [bst_ordered_iff_pairwise, avl_remove_inorder_bst h.1 e]
  exact ((bst_ordered_iff_pairwise T).1 h.1).sublist (List.erase_sublist _ _)

/-- Witness for C1: removing the root key 30 from the balanced seven-node tree. -/
theorem avl_remove_preserves_avl_witness :
    avl_valid balanced_tree_7 ∧
      ∃ T', avl_remove balanced_tree_7 30 = some T' ∧ bst_ordered T' ∧ balanced T' :=
  ⟨by decide, avl_remove_preserves_avl balanced_tree_7 30 (by decide)⟩

/-- C2: for every BST-ordered tree `T` and every value `v`, the in-order sequence of
`avl_remove T v` is the in-order sequence of `T` with `v` erased: `v` is no longer
present and every other value of `T` is still present, exactly once. -/
theorem avl_remove_inorder (T : avl_t) (v : Int) (h : bst_ordered T) :
    ∃ T', avl_remove T v = some T' ∧ inorder T' = (inorder T).erase v ∧
      v ∉ inorder T' ∧ ∀ x, x ≠ v → x ∈ inorder T → (inorder T').count x = 1 := by
  obtain ⟨T', e⟩ := avl_remove_total T v
  have hi := avl_remove_inorder_bst h e
  have hnd : (inorder T).Nodup :=
    ((bst_ordered_iff_pairwise T).1 h).imp (fun hab => ne_of_lt hab)
  refine ⟨T', e, hi, ?_, ?_⟩
  · rw [hi]; exact fun hm => (hnd.mem_erase_iff.1 hm).1 rfl
  · intro x hx hm
    rw [hi]
    exact List.count_eq_one_of_mem (hnd.erase v) (hnd.mem_erase_iff.2 ⟨hx, hm⟩)

/-- Witness for C2: removing 2 from the BST-ordered chain 1, 2, 3. -/
theorem avl_remove_inorder_witness :
    bst_ordered right_chain ∧
      ∃ T', avl_remove right_chain 2 = some T' ∧
        inorder T' = (inorder right_chain).erase 2 ∧ (2 : Int) ∉ inorder T' ∧
        ∀ x, x ≠ 2 → x ∈ inorder right_chain → (inorder T').count x = 1 :=
  ⟨by decide, avl_remove_inorder right_chain 2 (by decide)⟩

/-- C3: for every AVL-valid tree `T` and value `v`: if `v` occurs in `T` exactly once,
`avl_remove T v` has exactly one node fewer than `T`; if `v` does not occur in `T`,
`avl_remove T v` has as many nodes as `T`. -/
theorem avl_remove_size (T : avl_t) (v : Int) (h : avl_valid T) :
    ∃ T', avl_remove T v = some T' ∧
      ((inorder T).count v = 1 → size T' + 1 = size T) ∧
      (v ∉ inorder T → size T' = size T) := by
  obtain ⟨T', e⟩ := avl_remove_total T v
  have hi := avl_remove_inorder_bst h.1 e
  refine ⟨T', e, ?_, ?_⟩
  · intro hc
    have hm : v ∈ inorder T := List.count_pos_iff.1 (by omega)
    have hl := List.length_erase_of_mem hm
    have hpos := List.length_pos_of_mem hm
    rw [size_eq_length_inorder, size_eq_length_inorder, hi, hl]
    omega
  · intro hm
    rw [size_eq_length_inorder, size_eq_length_inorder, hi, List.erase_of_not_mem hm]

/-- Witness for C3: removing the leaf key 25 from the balanced seven-node tree. -/
theorem avl_remove_size_witness :
    avl_valid balanced_tree_7 ∧
      ∃ T', avl_remove balanced_tree_7 25 = some T' ∧
        ((inorder balanced_tree_7).count 25 = 1 → size T' + 1 = size balanced_tree_7) ∧
        ((25 : Int) ∉ inorder balanced_tree_7 → size T' = size balanced_tree_7) :=
  ⟨by decide, avl_remove_size balanced_tree_7 25 (by decide)⟩

/-- C4: starting from an AVL-valid tree whose every cached height equals one plus the
larger of the heights of its subtrees, any finite sequence of `avl_remove` calls with
arbitrary values returns a tree in which every cached height is again correct (and
which is again AVL-valid). -/
theorem remove_all_heights_correct (T : avl_t) (vs : List Int) (h : avl_valid T)
    (hc : heights_correct T) :
    ∃ T', remove_all T vs = some T' ∧ heights_correct T' ∧ avl_valid T' := by
  obtain ⟨T', e, hv', hc'⟩ := remove_all_invariants vs T h hc
  exact ⟨T', e, hc', hv'⟩

/-- Witness for C4: five removals in a row from the balanced seven-node tree, two of
them of keys that are not (or no longer) present. -/
theorem remove_all_heights_correct_witness :
    avl_valid balanced_tree_7 ∧ heights_correct balanced_tree_7 ∧
      ∃ T', remove_all balanced_tree_7 [30, 7, 10, 25, 30] = some T' ∧
        heights_correct T' ∧ avl_valid T' :=
  ⟨by decide, by decide,
    remove_all_heights_correct balanced_tree_7 [30, 7, 10, 25, 30] (by decide) (by decide)⟩

/-- C5: for every AVL-valid tree `T` with correct cached heights and every value `v`,
removing `v` a second time changes nothing: `avl_remove T v` returns some `T'`, and
`avl_remove T' v` returns `T'` itself (shape, values and cached heights). -/
theorem avl_remove_idempotent (T : avl_t) (v : Int) (h : avl_valid T)
    (hc : heights_correct T) :
    ∃ T', avl_remove T v = some T' ∧ avl_remove T' v = some T' := by
  obtain ⟨T', e⟩ := avl_remove_total T v
  refine ⟨T', e, ?_⟩
  have hnd : (inorder T).Nodup :=
    ((bst_ordered_iff_pairwise T).1 h.1).imp (fun hab => ne_of_lt hab)
  have hv : v ∉ inorder T' := by
    rw [avl_remove_inorder_bst h.1 e]
    exact fun hm => (hnd.mem_erase_iff.1 hm).1 rfl
  exact avl_remove_of_not_mem (avl_remove_balanced h.2 e).1 (avl_remove_heights_correct hc e) hv

/-- Witness for C5: removing 20 twice from the balanced seven-node tree. -/
theorem avl_remove_idempotent_witness :
    avl_valid balanced_tree_7 ∧ heights_correct balanced_tree_7 ∧
      ∃ T', avl_remove balanced_tree_7 20 = some T' ∧ avl_remove T' 20 = some T' :=
  ⟨by decide, by decide, avl_remove_idempotent balanced_tree_7 20 (by decide) (by decide)⟩

/-- C6: for every AVL-valid tree `T` with correct cached heights and every value `v`
that does not occur in `T`, `avl_remove T v` returns `T` itself: the same root, shape,
values and cached height fields. -/
theorem avl_remove_absent_unchanged (T : avl_t) (v : Int) (h : avl_valid T)
    (hc : heights_correct T) (hv : v ∉ inorder T) : avl_remove T v = some T :=
  avl_remove_of_not_mem h.2 hc hv

/-- Witness for C6: removing the absent key 9999 from the balanced seven-node tree. -/
theorem avl_remove_absent_unchanged_witness :
    avl_valid balanced_tree_7 ∧ heights_correct balanced_tree_7 ∧
      (9999 : Int) ∉ inorder balanced_tree_7 ∧
      avl_remove balanced_tree_7 9999 = some balanced_tree_7 :=
  ⟨by decide, by decide, by decide,
    avl_remove_absent_unchanged balanced_tree_7 9999 (by decide) (by decide) (by decide)⟩

/-- C7, as stated, fails: the right-leaning chain 1, 2, 3 does not contain 9999, yet
`avl_remove` rotates it at the root on the way back up, so the returned tree has 2 at the
root and a different shape. -/
theorem avl_remove_absent_restructures :
    (9999 : Int) ∉ inorder right_chain ∧
      avl_remove right_chain 9999 = some (node 2 2 (leaf 1) (leaf 3)) ∧
      structure_of (node 2 2 (leaf 1) (leaf 3)) ≠ structure_of right_chain := by
  decide

/-- C7, amended: for every tree `T` (no ordering assumption, cached heights arbitrary)
that does not contain `v`, `avl_remove T v` returns a tree with the same node count and
the same in-order sequence of values as `T`; if in addition `T` is height-balanced at
every node, the returned tree has the same shape and the same value at every position. -/
theorem avl_remove_absent_structure (T : avl_t) (v : Int) (hv : v ∉ inorder T) :
    ∃ T', avl_remove T v = some T' ∧ size T' = size T ∧ inorder T' = inorder T ∧
      (balanced T → structure_of T' = structure_of T) := by
  obtain ⟨T', e⟩ := avl_remove_total T v
  have hi := avl_remove_inorder_of_not_mem hv e
  exact ⟨T', e, by rw [size_eq_length_inorder, size_eq_length_inorder, hi], hi,
    fun hb => avl_remove_structure_of_not_mem hb hv e⟩

/-- Witness for the amended C7: removing the absent key 9999 from the chain 1, 2, 3. -/
theorem avl_remove_absent_structure_witness :
    (9999 : Int) ∉ inorder right_chain ∧
      ∃ T', avl_remove right_chain 9999 = some T' ∧ size T' = size right_chain ∧
        inorder T' = inorder right_chain ∧
        (balanced right_chain → structure_of T' = structure_of right_chain) :=
  ⟨by decide, avl_remove_absent_structure right_chain 9999 (by decide)⟩

/-- C8: for every tree `T` and value `v`, `avl_remove T v` returns (it never faults), and
it returns the absent tree if and only if `T` is absent or `T` is a single node without
children whose value is `v`. In particular removing 10 from the single-node tree holding
10 returns the absent tree, and removal from the absent tree returns the absent tree. -/
theorem avl_remove_eq_null_iff (T : avl_t) (v : Int) :
    (∃ T', avl_remove T v = some T') ∧
      (avl_remove T v = some null ↔ T = null ∨ ∃ h, T = node v h null null) ∧
      avl_remove (leaf 10) 10 = some null ∧ avl_remove null v = some null := by
  refine ⟨avl_remove_total T v, ⟨?_, ?_⟩, avl_remove_eq_leaf 10 1, rfl⟩
  · intro e
    cases T with
    | null => exact Or.inl rfl
    | node n h l r =>
      right
      rcases avl_remove_node_cases n h v l r with ⟨_, e1⟩ | ⟨_, e1⟩ | ⟨rfl, rfl, rfl, _⟩ |
        ⟨_, rfl, hr, e1⟩ | ⟨_, hl, rfl, e1⟩ | ⟨_, _, _, tn, _, _, e1⟩
      · rw [e1] at e
        obtain ⟨l', _, e2⟩ := bind_eq_some_elim e
        exact absurd rfl (avl_remove_unwind_ne_null e2)
      · rw [e1] at e
        obtain ⟨r', _, e2⟩ := bind_eq_some_elim e
        exact absurd rfl (avl_remove_unwind_ne_null e2)
      · exact ⟨h, rfl⟩
      · rw [e1] at e
        cases r with
        | null => exact absurd rfl hr
        | node rn rh rl rr => exact absurd rfl (avl_remove_unwind_ne_null e)
      · rw [e1] at e
        cases l with
        | null => exact absurd rfl hl
        | node ln lh ll lr => exact absurd rfl (avl_remove_unwind_ne_null e)
      · rw [e1] at e
        obtain ⟨r', _, e2⟩ := bind_eq_some_elim e
        exact absurd rfl (avl_remove_unwind_ne_null e2)
  · rintro (rfl | ⟨h, rfl⟩)
    · rfl
    · exact avl_remove_eq_leaf v h

/-- C9: `avl_height` is a total function that returns 0 for the absent tree and, for a
node with arbitrary cached height, exactly one plus the larger of the heights of its
two subtrees. -/
theorem avl_height_spec :
    avl_height null = 0 ∧
      ∀ (n h : Int) (l r : avl_t),
        avl_height (node n h l r) = 1 + Max.max (avl_height l) (avl_height r) :=
  ⟨rfl, avl_height_node⟩

/-- C10: `avl_balance` and `binary_tree_balance` both return 0 for the absent tree and
the height of the left subtree minus the height of the right subtree otherwise; they
agree on every input, and on a tree whose left subtree has height 3 and whose right
subtree has height 1 both return 2. -/
theorem balance_spec :
    (avl_balance null = 0 ∧ binary_tree_balance null = 0) ∧
      (∀ (n h : Int) (l r : avl_t),
        avl_balance (node n h l r) = avl_height l - avl_height r ∧
        binary_tree_balance (node n h l r) = avl_height l - avl_height r) ∧
      (∀ t : avl_t, avl_balance t = binary_tree_balance t) ∧
      (∀ (n h : Int) (l r : avl_t), avl_height l = 3 → avl_height r = 1 →
        avl_balance (node n h l r) = 2 ∧ binary_tree_balance (node n h l r) = 2) := by
  refine ⟨⟨rfl, rfl⟩, fun n h l r => ⟨rfl, rfl⟩, fun t => ?_, fun n h l r h3 h1 => ?_⟩
  · cases t <;> rfl
  · simp only [avl_balance, binary_tree_balance, h3, h1]
    exact ⟨rfl, rfl⟩

/-- Witness for C10: a tree whose subtrees have heights 3 and 1. -/
theorem balance_spec_witness :
    avl_balance left_3_right_1 = 2 ∧ binary_tree_balance left_3_right_1 = 2 :=
  balance_spec.2.2.2 50 4 (node 30 3 (node 20 2 (leaf 10) null) (leaf 40)) (leaf 60)
    (by decide) (by decide)

/-- C11: for every node `y` whose left child `x` is present, with `A = x.left`,
`B = x.right` and `C = y.right`, `avl_rotate_right y` returns `x` as root with
`x.left = A`, `x.right = y`, `y.left = B`, `y.right = C`; the cached height of `y` and
then that of `x` are set to one plus the larger of the true heights of their new
children, and `A`, `B`, `C` are returned as they were. `avl_rotate_left` is the mirror
image for a node whose right child is present. -/
theorem avl_rotate_spec (yn yh xn xh : Int) (A B C : avl_t) :
    avl_rotate_right (node yn yh (node xn xh A B) C) =
        some (node xn
          (1 + Max.max (avl_height A)
            (avl_height (node yn (1 + Max.max (avl_height B) (avl_height C)) B C)))
          A (node yn (1 + Max.max (avl_height B) (avl_height C)) B C)) ∧
      avl_rotate_left (node xn xh A (node yn yh B C)) =
        some (node yn
          (1 + Max.max (avl_height (node xn (1 + Max.max (avl_height A) (avl_height B)) A B))
            (avl_height C))
          (node xn (1 + Max.max (avl_height A) (avl_height B)) A B) C) := by
  simp only [avl_rotate_right, avl_rotate_left, max_eq_max, add_comm]
  exact ⟨trivial, trivial⟩

/-- C12: for every node `y` whose left child is present, `avl_rotate_right y` returns a
tree on which `avl_rotate_left` returns a tree with the shape and values of `y`; and
for every node `x` whose right child is present, `avl_rotate_left x` followed by
`avl_rotate_right` returns a tree with the shape and values of `x`. -/
theorem avl_rotate_round_trip (yn yh xn xh : Int) (A B C : avl_t) :
    (∃ t t', avl_rotate_right (node yn yh (node xn xh A B) C) = some t ∧
        avl_rotate_left t = some t' ∧
        structure_of t' = structure_of (node yn yh (node xn xh A B) C)) ∧
      (∃ t t', avl_rotate_left (node xn xh A (node yn yh B C)) = some t ∧
        avl_rotate_right t = some t' ∧
        structure_of t' = structure_of (node xn xh A (node yn yh B C))) :=
  ⟨⟨_, _, rfl, rfl, rfl⟩, ⟨_, _, rfl, rfl, rfl⟩⟩

/-- C13: on every tree whose pivot child is present, `avl_rotate_right` and
`avl_rotate_left` return a tree with the same in-order sequence of values as the
input; hence a BST-ordered input gives a BST-ordered output with the same values. -/
theorem avl_rotate_inorder (yn yh xn xh : Int) (A B C : avl_t) :
    (∃ t, avl_rotate_right (node yn yh (node xn xh A B) C) = some t ∧
        inorder t = inorder (node yn yh (node xn xh A B) C) ∧
        (bst_ordered (node yn yh (node xn xh A B) C) → bst_ordered t)) ∧
      (∃ t, avl_rotate_left (node xn xh A (node yn yh B C)) = some t ∧
        inorder t = inorder (node xn xh A (node yn yh B C)) ∧
        (bst_ordered (node xn xh A (node yn yh B C)) → bst_ordered t)) := by
  refine ⟨⟨_, rfl, ?_, ?_⟩, ⟨_, rfl, ?_, ?_⟩⟩
  · simp [inorder]
  · simp only [bst_ordered_iff_pairwise]
    simp [inorder]
  · simp [inorder]
  · simp only [bst_ordered_iff_pairwise]
    simp [inorder]

/-- Witness for C13: rotating the BST-ordered tree 30 (15 (10, 20), 40) to the right. -/
theorem avl_rotate_inorder_witness :
    bst_ordered left_heavy_tree ∧
      ∃ t, avl_rotate_right left_heavy_tree = some t ∧
        inorder t = inorder left_heavy_tree ∧ bst_ordered t := by
  obtain ⟨t, e, hi, hb⟩ := (avl_rotate_inorder 30 3 15 2 (leaf 10) (leaf 20) (leaf 40)).1
  exact ⟨by decide, t, e, hi, hb (by decide)⟩

/-- C14: removing 30 from the balanced tree built from 30, 20, 40, 10, 25, 35, 50
returns a tree whose root holds 35 (the in-order successor), that is AVL-valid, that
has exactly 6 nodes and in which no node holds 30. -/
theorem avl_remove_root_of_balanced_tree_7 :
    avl_valid balanced_tree_7 ∧ inorder balanced_tree_7 = [10, 20, 25, 30, 35, 40, 50] ∧
      avl_remove balanced_tree_7 30 =
        some (node 35 3 (node 20 2 (leaf 10) (leaf 25)) (node 40 2 null (leaf 50))) ∧
      avl_valid (node 35 3 (node 20 2 (leaf 10) (leaf 25)) (node 40 2 null (leaf 50))) ∧
      size (node 35 3 (node 20 2 (leaf 10) (leaf 25)) (node 40 2 null (leaf 50))) = 6 ∧
      (30 : Int) ∉ inorder (node 35 3 (node 20 2 (leaf 10) (leaf 25)) (node 40 2 null (leaf 50)))
    := by
  decide

/-- C15, as stated, fails: removing 40 from the left-heavy AVL-valid tree
30 (15 (10, 20), 40) does not return a tree with 20 at the root. -/
theorem avl_remove_left_heavy_root_ne_20 :
    avl_valid left_heavy_tree ∧
      ¬ ∃ h l r, avl_remove left_heavy_tree 40 = some (node 20 h l r) := by
  refine ⟨by decide, ?_⟩
  rintro ⟨h, l, r, e⟩
  have e' : avl_remove left_heavy_tree 40 =
      some (node 15 3 (leaf 10) (node 30 2 (leaf 20) null)) := by decide
  rw [e'] at e
  simp at e

/-- C15, amended: the left-heavy tree 30 (15 (10, 20), 40) is AVL-valid; removing 40
empties the right subtree, the root then has balance factor 2 with a left child of
balance factor 0, so the `balance > 1` case with a single right rotation is taken at
the root, and the returned tree has the former left child 15 at the root (left child 10,
right child 30 whose left child is 20). -/
theorem avl_remove_left_heavy :
    avl_valid left_heavy_tree ∧
      avl_remove (leaf 40) 40 = some null ∧
      avl_balance (node 30 3 (node 15 2 (leaf 10) (leaf 20)) null) = 2 ∧
      avl_balance (node 15 2 (leaf 10) (leaf 20)) = 0 ∧
      avl_remove left_heavy_tree 40 =
        avl_rotate_right (node 30 3 (node 15 2 (leaf 10) (leaf 20)) null) ∧
      avl_remove left_heavy_tree 40 =
        some (node 15 3 (leaf 10) (node 30 2 (leaf 20) null)) := by
  decide

/-- The root does become 20 when the tree is the one plain BST insertion of
30, 20, 40, 10, 15 builds, which is not height-balanced. -/
theorem avl_remove_inserted_chain :
    bst_ordered inserted_chain_tree ∧ ¬ balanced inserted_chain_tree ∧
      avl_remove inserted_chain_tree 40 =
        some (node 20 3 (node 10 2 null (leaf 15)) (leaf 30)) := by
  decide

/-- On a present tree `avl_find_min` returns a node reached by left links only. -/
theorem avl_find_min_reached (n h : Int) (l r : avl_t) :
    ∀ m, avl_find_min (node n h l r) = some m → reached_by_left m (node n h l r) := by
  induction l generalizing n h r with
  | null =>
    intro m e
    simp only [avl_find_min, Option.some.injEq] at e
    exact Or.inl e.symm
  | node ln lh ll lr ihl _ =>
    intro m e
    rw [avl_find_min] at e
    exact Or.inr (ihl ln lh lr m e)

/-- The first key of the in-order sequence of a BST-ordered tree is its smallest key. -/
theorem head_le_of_bst_ordered {t : avl_t} {k : Int} {rest : List Int}
    (hb : bst_ordered t) (e : inorder t = k :: rest) : ∀ x ∈ inorder t, k ≤ x := by
  have hp := (bst_ordered_iff_pairwise t).1 hb
  rw [e] at hp ⊢
  intro x hx
  rcases List.mem_cons.1 hx with rfl | hx
  · exact le_refl _
  · exact le_of_lt (List.rel_of_pairwise_cons hp hx)

/-- C16: on every present tree `avl_find_min` returns the leftmost node: a node that is
reached from the root by following only left links and has no left child. Its key is
the first element of the in-order sequence, hence the smallest key when the tree is
BST-ordered; and in the two-children case of `avl_remove` this key of the right subtree
is the one copied into the matched node and then removed from the right subtree. -/
theorem avl_find_min_leftmost (n h : Int) (l r : avl_t) :
    ∃ mn mh mr, avl_find_min (node n h l r) = some (node mn mh null mr) ∧
      reached_by_left (node mn mh null mr) (node n h l r) ∧
      (inorder (node n h l r)).head? = some mn ∧
      (bst_ordered (node n h l r) → ∀ x ∈ inorder (node n h l r), mn ≤ x) ∧
      ∀ (k c ln lh : Int) (ll lr : avl_t),
        avl_remove (node k c (node ln lh ll lr) (node n h l r)) k =
          (avl_remove (node n h l r) mn).bind fun r' =>
            avl_remove_unwind (node mn c (node ln lh ll lr) r') := by
  obtain ⟨mn, mh, mr, rest, e, hi⟩ := avl_find_min_node n h l r
  refine ⟨mn, mh, mr, e, avl_find_min_reached n h l r _ e, by rw [hi]; rfl,
    fun hb => head_le_of_bst_ordered hb hi, ?_⟩
  intro k c ln lh ll lr
  rw [avl_remove, if_neg (by omega), if_neg (by omega)]
  simp only [e]

/-- Witness for C16: the leftmost node of the BST-ordered seven-node tree holds 10. -/
theorem avl_find_min_leftmost_witness :
    bst_ordered balanced_tree_7 ∧
      ∃ mn mh mr, avl_find_min balanced_tree_7 = some (node mn mh null mr) ∧
        ∀ x ∈ inorder balanced_tree_7, mn ≤ x := by
  obtain ⟨mn, mh, mr, e, _, _, hmin, _⟩ :=
    avl_find_min_leftmost 30 3 (node 20 2 (leaf 10) (leaf 25)) (node 40 2 (leaf 35) (leaf 50))
  exact ⟨by decide, mn, mh, mr, e, hmin (by decide)⟩

/-- C17: on every tree (AVL-valid or not, cached heights arbitrary) and every value,
`avl_remove` returns without a fault; as a fault of any helper call is passed on to
the caller, every call of a rotation or of `avl_find_min` met its precondition. The
conditions guarding the rotations imply that the pivot is present: a balance factor
above 1 makes the left child present, and a negative balance factor of that child makes
its right child present, so both rotations of the left-right case are defined; the
right-heavy cases are the mirror image; and `avl_find_min` is defined on every present
node. -/
theorem avl_remove_never_faults :
    (∀ (T : avl_t) (v : Int), ∃ T', avl_remove T v = some T') ∧
      (∀ t : avl_t, ∃ t', avl_remove_unwind t = some t') ∧
      (∀ (n h : Int) (l r : avl_t), avl_balance (node n h l r) > 1 →
        ∃ t, avl_rotate_right (node n h l r) = some t) ∧
      (∀ (n h : Int) (l r : avl_t), avl_balance (node n h l r) > 1 → avl_balance l < 0 →
        ∃ l', avl_rotate_left l = some l' ∧ ∃ t, avl_rotate_right (node n h l' r) = some t) ∧
      (∀ (n h : Int) (l r : avl_t), avl_balance (node n h l r) < -1 →
        ∃ t, avl_rotate_left (node n h l r) = some t) ∧
      (∀ (n h : Int) (l r : avl_t), avl_balance (node n h l r) < -1 → avl_balance r > 0 →
        ∃ r', avl_rotate_right r = some r' ∧ ∃ t, avl_rotate_left (node n h l r') = some t) ∧
      (∀ (n h : Int) (l r : avl_t), ∃ m, avl_find_min (node n h l r) = some m) := by
  refine ⟨avl_remove_total, avl_remove_unwind_total, ?_, ?_, ?_, ?_, ?_⟩
  · intro n h l r hb
    have hr0 := avl_height_nonneg r
    simp only [avl_balance] at hb
    obtain ⟨xn, xh, A, B, rfl⟩ := node_of_height_pos (t := l) (by omega)
    exact ⟨_, rfl⟩
  · intro n h l r hb hl
    have hr0 := avl_height_nonneg r
    simp only [avl_balance] at hb
    obtain ⟨xn, xh, A, B, rfl⟩ := node_of_height_pos (t := l) (by omega)
    have hA0 := avl_height_nonneg A
    simp only [avl_balance] at hl
    obtain ⟨zn, zh, B1, B2, rfl⟩ := node_of_height_pos (t := B) (by omega)
    exact ⟨_, rfl, _, rfl⟩
  · intro n h l r hb
    have hl0 := avl_height_nonneg l
    simp only [avl_balance] at hb
    obtain ⟨yn, yh, B, C, rfl⟩ := node_of_height_pos (t := r) (by omega)
    exact ⟨_, rfl⟩
  · intro n h l r hb hr
    have hl0 := avl_height_nonneg l
    simp only [avl_balance] at hb
    obtain ⟨yn, yh, B, C, rfl⟩ := node_of_height_pos (t := r) (by omega)
    have hC0 := avl_height_nonneg C
    simp only [avl_balance] at hr
    obtain ⟨zn, zh, B1, B2, rfl⟩ := node_of_height_pos (t := B) (by omega)
    exact ⟨_, rfl, _, rfl⟩
  · intro n h l r
    obtain ⟨mn, mh, mr, _, e, _⟩ := avl_find_min_node n h l r
    exact ⟨_, e⟩

/-- Witness for C17: the root of 30 (15 (10, 20), -) has balance factor 2, and the
right rotation at it is defined. -/
theorem avl_remove_never_faults_witness :
    avl_balance (node 30 3 (node 15 2 (leaf 10) (leaf 20)) null) > 1 ∧
      ∃ t, avl_rotate_right (node 30 3 (node 15 2 (leaf 10) (leaf 20)) null) = some t :=
  ⟨by decide,
    avl_remove_never_faults.2.2.1 30 3 (node 15 2 (leaf 10) (leaf 20)) null (by decide)⟩

/-! ## Independence from the cached heights -/

/-- Trees of the same shape have the same balance factor. -/
theorem avl_balance_of_structure {t t' : avl_t} (h : structure_of t = structure_of t') :
    avl_balance t = avl_balance t' := by
  cases t with
  | null =>
    cases t' with
    | null => rfl
    | node _ _ _ _ => simp [structure_of] at h
  | node n c l r =>
    cases t' with
    | null => simp [structure_of] at h
    | node n' c' l' r' =>
      simp only [structure_of, shape_t.node.injEq] at h
      simp only [avl_balance, avl_height_of_structure h.2.1, avl_height_of_structure h.2.2]

/-- Trees of the same shape and keys have the same in-order sequence. -/
theorem inorder_of_structure {t t' : avl_t} (h : structure_of t = structure_of t') :
    inorder t = inorder t' := by
  induction t generalizing t' with
  | null =>
    cases t' with
    | null => rfl
    | node _ _ _ _ => simp [structure_of] at h
  | node n c l r ihl ihr =>
    cases t' with
    | null => simp [structure_of] at h
    | node n' c' l' r' =>
      simp only [structure_of, shape_t.node.injEq] at h
      simp only [inorder, ihl h.2.1, ihr h.2.2, h.1]

/-- The shape returned by `avl_rotate_right` depends only on the shape of its input. -/
theorem avl_rotate_right_of_structure {t t' : avl_t} (h : structure_of t = structure_of t') :
    (avl_rotate_right t).map structure_of = (avl_rotate_right t').map structure_of := by
  rcases t with _ | ⟨n, c, _ | ⟨xn, xc, A, B⟩, r⟩ <;>
    rcases t' with _ | ⟨n', c', _ | ⟨xn', xc', A', B'⟩, r'⟩ <;>
    simp_all [structure_of, avl_rotate_right]

/-- The shape returned by `avl_rotate_left` depends only on the shape of its input. -/
theorem avl_rotate_left_of_structure {t t' : avl_t} (h : structure_of t = structure_of t') :
    (avl_rotate_left t).map structure_of = (avl_rotate_left t').map structure_of := by
  rcases t with _ | ⟨n, c, l, _ | ⟨yn, yc, B, C⟩⟩ <;>
    rcases t' with _ | ⟨n', c', l', _ | ⟨yn', yc', B', C'⟩⟩ <;>
    simp_all [structure_of, avl_rotate_left]

/-- Two computations with results of the same shape, continued by functions that map
trees of the same shape to results of the same shape, give results of the same shape. -/
theorem bind_of_structure {o o' : Option avl_t} {f f' : avl_t → Option avl_t}
    (ho : o.map structure_of = o'.map structure_of)
    (hf : ∀ a a', structure_of a = structure_of a' →
      (f a).map structure_of = (f' a').map structure_of) :
    (o.bind f).map structure_of = (o'.bind f').map structure_of := by
  cases o with
  | none =>
    cases o' with
    | none => rfl
    | some a' => simp at ho
  | some a =>
    cases o' with
    | none => simp at ho
    | some a' =>
      simp only [Option.map_some', Option.some.injEq] at ho
      exact hf a a' ho

/-- The shape returned by the unwinding step depends only on the shape of its input. -/
theorem avl_remove_unwind_of_structure {t t' : avl_t}
    (h : structure_of t = structure_of t') :
    (avl_remove_unwind t).map structure_of = (avl_remove_unwind t').map structure_of := by
  cases t with
  | null =>
    cases t' with
    | null => rfl
    | node _ _ _ _ => simp [structure_of] at h
  | node n c l r =>
    cases t' with
    | null => simp [structure_of] at h
    | node n' c' l' r' =>
      have h' := h
      simp only [structure_of, shape_t.node.injEq] at h'
      obtain ⟨rfl, hl, hr⟩ := h'
      have ehl := avl_height_of_structure hl
      have ehr := avl_height_of_structure hr
      have ebl := avl_balance_of_structure hl
      have ebr := avl_balance_of_structure hr
      have hroot : ∀ a b : Int, structure_of (node n a l r) = structure_of (node n b l' r') :=
        fun a b => by simp [structure_of, hl, hr]
      have bnode : ∀ (a : Int) (x y : avl_t),
          avl_balance (node n a x y) = avl_height x - avl_height y := fun _ _ _ => rfl
      simp only [avl_remove_unwind, bnode, ehl, ehr, ebl, ebr]
      split_ifs
      · exact avl_rotate_right_of_structure (hroot _ _)
      · exact bind_of_structure (avl_rotate_left_of_structure hl) fun a a' ha =>
          avl_rotate_right_of_structure (by simp [structure_of, ha, hr])
      · exact avl_rotate_left_of_structure (hroot _ _)
      · exact bind_of_structure (avl_rotate_right_of_structure hr) fun a a' ha =>
          avl_rotate_left_of_structure (by simp [structure_of, ha, hl])
      · simp [structure_of, hl, hr]

/-- The shape returned by `avl_remove` depends only on the shape of its input. -/
theorem avl_remove_of_structure {t t' : avl_t} (value : Int)
    (h : structure_of t = structure_of t') :
    (avl_remove t value).map structure_of = (avl_remove t' value).map structure_of := by
  induction t generalizing t' value with
  | null =>
    cases t' with
    | null => rfl
    | node _ _ _ _ => simp [structure_of] at h
  | node n c l r ihl ihr =>
    cases t' with
    | null => simp [structure_of] at h
    | node n' c' l' r' =>
      have h' := h
      simp only [structure_of, shape_t.node.injEq] at h'
      obtain ⟨rfl, hl, hr⟩ := h'
      rcases avl_remove_node_cases n c value l r with ⟨hv, e1⟩ | ⟨hv, e1⟩ |
        ⟨rfl, rfl, rfl, e1⟩ | ⟨rfl, rfl, hr0, e1⟩ | ⟨rfl, hl0, rfl, e1⟩ |
        ⟨rfl, hl0, hr0, tn, rest, hmin, e1⟩
      · rw [e1, avl_remove_lt l' r' hv]
        exact bind_of_structure (ihl value hl) fun a a' ha =>
          avl_remove_unwind_of_structure (by simp [structure_of, ha, hr])
      · rw [e1, avl_remove_gt l' r' hv]
        exact bind_of_structure (ihr value hr) fun a a' ha =>
          avl_remove_unwind_of_structure (by simp [structure_of, ha, hl])
      · cases l' with
        | node _ _ _ _ => simp [structure_of] at hl
        | null =>
          cases r' with
          | node _ _ _ _ => simp [structure_of] at hr
          | null => rw [e1, avl_remove_eq_leaf]
      · cases l' with
        | node _ _ _ _ => simp [structure_of] at hl
        | null =>
          cases r with
          | null => exact absurd rfl hr0
          | node rn rh rl rr =>
            cases r' with
            | null => simp [structure_of] at hr
            | node rn' rh' rl' rr' =>
              rw [e1, avl_remove_eq_right]
              exact avl_remove_unwind_of_structure hr
      · cases r' with
        | node _ _ _ _ => simp [structure_of] at hr
        | null =>
          cases l with
          | null => exact absurd rfl hl0
          | node ln lh ll lr =>
            cases l' with
            | null => simp [structure_of] at hl
            | node ln' lh' ll' lr' =>
              rw [e1, avl_remove_eq_left]
              exact avl_remove_unwind_of_structure hl
      · cases l' with
        | null =>
          cases l with
          | null => exact absurd rfl hl0
          | node _ _ _ _ => simp [structure_of] at hl
        | node ln' lh' ll' lr' =>
          cases r' with
          | null =>
            cases r with
            | null => exact absurd rfl hr0
            | node _ _ _ _ => simp [structure_of] at hr
          | node rn' rh' rl' rr' =>
            obtain ⟨tn', rest', hmin', e2⟩ :=
              avl_remove_eq_two value c' ln' lh' rn' rh' ll' lr' rl' rr'
            have htn : tn = tn' := by
              have hio := inorder_of_structure hr
              rw [hmin, hmin'] at hio
              exact (List.cons.inj hio).1
            subst htn
            rw [e1, e2]
            exact bind_of_structure (ihr tn hr) fun a a' ha =>
              avl_remove_unwind_of_structure (by simp [structure_of, ha, hl])

/-- C18: `avl_height`, `avl_balance` and the shape returned by `avl_remove` do not
depend on the cached height fields of the input: two trees with the same shape and the
same values (whatever their cached heights) have the same `avl_height` and the same
`avl_balance`, and for the same value `avl_remove` returns on both a tree, the two
returned trees having the same shape and the same value at every position. -/
theorem cached_heights_irrelevant (T1 T2 : avl_t) (v : Int)
    (h : structure_of T1 = structure_of T2) :
    avl_height T1 = avl_height T2 ∧ avl_balance T1 = avl_balance T2 ∧
      ∃ T1' T2', avl_remove T1 v = some T1' ∧ avl_remove T2 v = some T2' ∧
        structure_of T1' = structure_of T2' := by
  refine ⟨avl_height_of_structure h, avl_balance_of_structure h, ?_⟩
  obtain ⟨T1', e1⟩ := avl_remove_total T1 v
  obtain ⟨T2', e2⟩ := avl_remove_total T2 v
  have hs := avl_remove_of_structure v h
  rw [e1, e2] at hs
  exact ⟨T1', T2', e1, e2, by simpa using hs⟩

/-- Witness for C18: the left-heavy tree with all cached heights set to 0 against the
same tree with correct cached heights, removing 40. -/
theorem cached_heights_irrelevant_witness :
    structure_of (node 30 0 (node 15 0 (node 10 0 null null) (node 20 0 null null))
        (node 40 0 null null)) = structure_of left_heavy_tree ∧
      avl_height (node 30 0 (node 15 0 (node 10 0 null null) (node 20 0 null null))
        (node 40 0 null null)) = avl_height left_heavy_tree ∧
      avl_balance (node 30 0 (node 15 0 (node 10 0 null null) (node 20 0 null null))
        (node 40 0 null null)) = avl_balance left_heavy_tree ∧
      ∃ T1' T2', avl_remove (node 30 0 (node 15 0 (node 10 0 null null) (node 20 0 null null))
          (node 40 0 null null)) 40 = some T1' ∧
        avl_remove left_heavy_tree 40 = some T2' ∧ structure_of T1' = structure_of T2' :=
  ⟨by decide, cached_heights_irrelevant _ left_heavy_tree 40 (by decide)⟩

/-- C19, as stated, fails: there is no input on which assigning the two heights in the
other order changes the result of a rotation. -/
theorem avl_rotate_order_irrelevant :
    ¬ ((∃ t, avl_rotate_right_x_first t ≠ avl_rotate_right t) ∨
      (∃ t, avl_rotate_left_y_first t ≠ avl_rotate_left t)) := by
  rintro (⟨t, ht⟩ | ⟨t, ht⟩)
  · apply ht
    unfold avl_rotate_right_x_first avl_rotate_right
    split <;> simp [avl_height_node]
  · apply ht
    unfold avl_rotate_left_y_first avl_rotate_left
    split <;> simp [avl_height_node]

/-- C19, amended: the order of the two height assignments in a rotation does not
matter. As `avl_height` recomputes heights by full descent and never reads a cached
field, the variant of `avl_rotate_right` that assigns `x->height` first and
`y->height` second returns, on every input, the same tree with the same cached heights
as `avl_rotate_right`; likewise for `avl_rotate_left`. -/
theorem avl_rotate_order_swapped (t : avl_t) :
    avl_rotate_right_x_first t = avl_rotate_right t ∧
      avl_rotate_left_y_first t = avl_rotate_left t := by
  constructor
  · unfold avl_rotate_right_x_first avl_rotate_right
    split <;> simp [avl_height_node]
  · unfold avl_rotate_left_y_first avl_rotate_left
    split <;> simp [avl_height_node]

/-- C20: for every AVL-valid tree `T` and every value `v`, the height of
`avl_remove T v` is the height of `T` or one less. -/
theorem avl_remove_height (T : avl_t) (v : Int) (h : avl_valid T) :
    ∃ T', avl_remove T v = some T' ∧
      avl_height T - 1 ≤ avl_height T' ∧ avl_height T' ≤ avl_height T := by
  obtain ⟨T', e⟩ := avl_remove_total T v
  obtain ⟨_, h1, h2⟩ := avl_remove_balanced h.2 e
  exact ⟨T', e, by omega, h1⟩

/-- Witness for C20: removing 40 from the left-heavy tree 30 (15 (10, 20), 40). -/
theorem avl_remove_height_witness :
    avl_valid left_heavy_tree ∧
      ∃ T', avl_remove left_heavy_tree 40 = some T' ∧
        avl_height left_heavy_tree - 1 ≤ avl_height T' ∧
        avl_height T' ≤ avl_height left_heavy_tree :=
  ⟨by decide, avl_remove_height left_heavy_tree 40 (by decide)⟩

end BinaryTrees
